import Mathlib

/-!
# Verification of the audiocontrol S-330 editor protocol layer

Shallow embedding of the protocol-relevant parts of the `audiocontrol`
repository, together with proofs of the specified properties.

Components modelled here:

* `WebMidiAdapter` — the chunked-SysEx frame reassembler implemented by the
  listener installed in `createWebMidiAdapter.onSysEx`
  (`src/modules/s330-editor/src/core/midi/WebMidiAdapter.ts`).
* `ToneZoneEditor` — the key-zone codec `arrayToZones` / `zonesToArray`
  (tone zone editor component).
* `EnvelopeEditor` — the envelope mutation helpers of the 8-point
  envelope editor (`src/modules/s330-editor/src/components/tones/ToneList.tsx`).
* `DeviceDataStore` — the zustand device-data store
  (patch/tone records plus loaded-bank bookkeeping).
* `TonesPage` — the control flow of `TonesPage.loadToneBank`.
-/

namespace WebMidiAdapter

/-- Mutable state captured by the `onSysEx` listener closure:
`sysExBuffer` (initially `[]`) and `isReceivingSysEx` (initially `false`). -/
structure RState where
  sysExBuffer : List Nat
  isReceivingSysEx : Bool
deriving DecidableEq, Repr

/-- The initial reassembler state: empty buffer, not receiving. -/
def initialRState : RState := ⟨[], false⟩

/--
One invocation of the midimessage listener installed by `onSysEx`, on the
chunk `data`.  Returns the updated closure state together with the frame
passed to `callback`, if any.  Mirrors the source's early-return chain:

* empty chunk: ignored;
* Case 1 (`firstByte === 0xF0 && lastByte === 0xF7`): complete message,
  emitted as-is, state untouched;
* Case 2 (`firstByte === 0xF0 && lastByte !== 0xF7`): start of a chunked
  message, buffer replaced by the chunk, receiving set;
* Case 3 (`isReceivingSysEx`): chunk appended to the buffer; if it ends
  with `0xF7` the buffer is emitted and the state reset;
* Case 4: non-SysEx chunk while idle, ignored.
-/
def processChunk (st : RState) (data : List Nat) : RState × Option (List Nat) :=
  if data.length = 0 then (st, none)
  else
    let firstByte := data.headD 0
    let lastByte := data.getLastD 0
    if firstByte = 0xF0 ∧ lastByte = 0xF7 then
      (st, some data)
    else if firstByte = 0xF0 ∧ lastByte ≠ 0xF7 then
      (⟨data, true⟩, none)
    else if st.isReceivingSysEx then
      let buf := st.sysExBuffer ++ data
      if lastByte = 0xF7 then (⟨[], false⟩, some buf)
      else (⟨buf, true⟩, none)
    else (st, none)

/-- Deliver a sequence of chunks to the listener, collecting every frame
passed to the callback, in order. -/
def processChunks (st : RState) (chunks : List (List Nat)) :
    RState × List (List Nat) :=
  match chunks with
  | [] => (st, [])
  | c :: cs =>
    let r := processChunk st c
    let rest := processChunks r.1 cs
    (rest.1, r.2.toList ++ rest.2)

/-- A valid SysEx frame for the purposes of the reassembler claims:
starts with `0xF0`, ends with `0xF7`, interior bytes below `0x80`. -/
def ValidFrame (mid : List Nat) : List Nat := 0xF0 :: (mid ++ [0xF7])

theorem flatten_ne_nil_of_forall_ne_nil {cs : List (List Nat)} (h : cs ≠ [])
    (h2 : ∀ c ∈ cs, c ≠ []) : cs.flatten ≠ [] := by
  cases cs with
  | nil => exact absurd rfl h
  | cons c cs' =>
    have hc : c ≠ [] := h2 c (List.mem_cons_self _ _)
    simp only [List.flatten_cons, ne_eq, List.append_eq_nil]
    intro hcon
    exact hc hcon.1

theorem headD_mem {c : List Nat} (h : c ≠ []) (d : Nat) : c.headD d ∈ c := by
  cases c with
  | nil => exact absurd rfl h
  | cons b rest => simp [List.headD_cons]

theorem getLastD_mem {c : List Nat} (h : c ≠ []) (d : Nat) :
    c.getLastD d ∈ c := by
  rw [List.getLastD_eq_getLast?, List.getLast?_eq_getLast c h]
  exact List.getLast_mem h

theorem headD_append_left {c r : List Nat} (h : c ≠ []) (d : Nat) :
    (c ++ r).headD d = c.headD d := by
  cases c with
  | nil => exact absurd rfl h
  | cons b t => simp

theorem getLastD_append_right {c r : List Nat} (h : r ≠ []) (d : Nat) :
    (c ++ r).getLastD d = r.getLastD d := by
  rw [List.getLastD_eq_getLast?, List.getLastD_eq_getLast?, List.getLast?_append]
  rw [List.getLast?_eq_getLast r h]
  simp

/-! Evaluation lemmas for `processChunk`, one per branch of the listener. -/

theorem processChunk_complete {st : RState} {data : List Nat} (h : data ≠ [])
    (h1 : data.headD 0 = 0xF0) (h2 : data.getLastD 0 = 0xF7) :
    processChunk st data = (st, some data) := by
  have h1' : data.head?.getD 0 = 0xF0 := by simpa using h1
  have h2' : data.getLast?.getD 0 = 0xF7 := by simpa using h2
  rw [processChunk]
  simp [List.length_eq_zero, h, h1', h2']

theorem processChunk_start {st : RState} {data : List Nat} (h : data ≠ [])
    (h1 : data.headD 0 = 0xF0) (h2 : data.getLastD 0 ≠ 0xF7) :
    processChunk st data = (⟨data, true⟩, none) := by
  have h1' : data.head?.getD 0 = 0xF0 := by simpa using h1
  have h2' : ¬ data.getLast?.getD 0 = 0xF7 := by simpa using h2
  rw [processChunk]
  simp [List.length_eq_zero, h, h1', h2']

theorem processChunk_append_end {buf : List Nat} {data : List Nat} (h : data ≠ [])
    (h1 : data.headD 0 ≠ 0xF0) (h2 : data.getLastD 0 = 0xF7) :
    processChunk ⟨buf, true⟩ data = (⟨[], false⟩, some (buf ++ data)) := by
  have h1' : ¬ data.head?.getD 0 = 0xF0 := by simpa using h1
  have h2' : data.getLast?.getD 0 = 0xF7 := by simpa using h2
  rw [processChunk]
  simp [List.length_eq_zero, h, h1', h2']

theorem processChunk_append_mid {buf : List Nat} {data : List Nat} (h : data ≠ [])
    (h1 : data.headD 0 ≠ 0xF0) (h2 : data.getLastD 0 ≠ 0xF7) :
    processChunk ⟨buf, true⟩ data = (⟨buf ++ data, true⟩, none) := by
  have h1' : ¬ data.head?.getD 0 = 0xF0 := by simpa using h1
  have h2' : ¬ data.getLast?.getD 0 = 0xF7 := by simpa using h2
  rw [processChunk]
  simp [List.length_eq_zero, h, h1', h2']

theorem processChunk_idle_ignore {st : RState} {data : List Nat}
    (hidle : st.isReceivingSysEx = false) (h1 : data.headD 0 ≠ 0xF0) :
    processChunk st data = (st, none) := by
  have h1' : ¬ data.head?.getD 0 = 0xF0 := by simpa using h1
  rw [processChunk]
  by_cases hnil : data.length = 0
  · simp [hnil]
  · simp [hnil, h1', hidle]

/-- Any byte of the tail `mid ++ [0xF7]` of a valid frame is distinct
from the start marker. -/
theorem tail_byte_ne_start {mid : List Nat} (hmid : ∀ b ∈ mid, b < 0x80)
    {b : Nat} (hb : b ∈ mid ++ [0xF7]) : b ≠ 0xF0 := by
  rcases List.mem_append.mp hb with h | h
  · have := hmid b h
    omega
  · simp only [List.mem_singleton] at h
    omega

/-- Core induction for C1: once the reassembler is Receiving with the
frame prefix `acc` buffered and the remaining chunks exactly cover the
rest of the frame, processing them emits the whole frame once. -/
theorem processChunks_receiving (mid : List Nat) (hmid : ∀ b ∈ mid, b < 0x80) :
    ∀ (cs : List (List Nat)), cs ≠ [] → (∀ c ∈ cs, c ≠ []) →
      ∀ acc : List Nat, acc ++ cs.flatten = ValidFrame mid →
      cs.flatten <:+ mid ++ [0xF7] →
      processChunks ⟨acc, true⟩ cs = (⟨[], false⟩, [ValidFrame mid]) := by
  intro cs
  induction cs with
  | nil => intro h; exact absurd rfl h
  | cons c cs' ih =>
    intro _ hcne acc hpart hsuf
    have hc : c ≠ [] := hcne c (List.mem_cons_self _ _)
    have hchead : c.headD 0 ≠ 0xF0 := by
      apply tail_byte_ne_start hmid
      apply hsuf.subset
      rw [List.flatten_cons]
      exact List.mem_append_left _ (headD_mem hc 0)
    cases cs' with
    | nil =>
      -- last chunk: it carries the final 0xF7
      have hflat : (([c] : List (List Nat)).flatten) = c := by simp
      rw [hflat] at hpart hsuf
      have hlast : c.getLastD 0 = 0xF7 := by
        have : (acc ++ c).getLastD 0 = 0xF7 := by
          rw [hpart, ValidFrame]
          rw [List.getLastD_cons, getLastD_append_right (by simp) _]
          simp
        rwa [getLastD_append_right hc 0] at this
      rw [processChunks, processChunk_append_end hc hchead hlast]
      simp [processChunks, hpart]
    | cons c2 cs2 =>
      have hj : (c2 :: cs2).flatten ≠ [] :=
        flatten_ne_nil_of_forall_ne_nil (by simp)
          (fun x hx => hcne x (List.mem_cons_of_mem _ hx))
      have hlast : c.getLastD 0 ≠ 0xF7 := by
        obtain ⟨t, ht⟩ := hsuf
        rw [List.flatten_cons] at ht
        have hdrop : mid = t ++ (c ++ (c2 :: cs2).flatten.dropLast) := by
          have hcj : c ++ (c2 :: cs2).flatten ≠ [] := by
            simp only [ne_eq, List.append_eq_nil, not_and]
            intro _
            exact hj
          have h1 : (t ++ (c ++ (c2 :: cs2).flatten)).dropLast
              = (mid ++ [0xF7]).dropLast := by rw [ht]
          rw [List.dropLast_concat] at h1
          rw [List.dropLast_append_of_ne_nil _ hcj,
            List.dropLast_append_of_ne_nil _ hj] at h1
          exact h1.symm
        have hcmem : c.getLastD 0 ∈ mid := by
          rw [hdrop]
          exact List.mem_append_right _ (List.mem_append_left _ (getLastD_mem hc 0))
        have := hmid _ hcmem
        omega
      rw [processChunks, processChunk_append_mid hc hchead hlast]
      have hres := ih (by simp) (fun x hx => hcne x (List.mem_cons_of_mem _ hx))
        (acc ++ c)
        (by rw [List.append_assoc]; rw [List.flatten_cons] at hpart; exact hpart)
        (by
          refine List.IsSuffix.trans ?_ hsuf
          rw [List.flatten_cons]
          exact List.suffix_append _ _)
      simp [hres]

theorem validFrame_headD (mid : List Nat) : (ValidFrame mid).headD 0 = 0xF0 := rfl

theorem validFrame_getLastD (mid : List Nat) :
    (ValidFrame mid).getLastD 0 = 0xF7 := by
  rw [ValidFrame, List.getLastD_cons]
  rw [show (0xF7 : Nat) = [0xF7].getLastD 0xF0 by rfl]
  exact getLastD_append_right (by simp) _

theorem validFrame_ne_nil (mid : List Nat) : ValidFrame mid ≠ [] := by
  simp [ValidFrame]

/-- C1: delivering any in-order partition of a valid SysEx frame into
non-empty chunks to the freshly-installed listener invokes the callback
exactly once, with exactly the unsplit frame, and returns the listener to
its initial state. -/
theorem reassembler_partition_emits_once (mid : List Nat) (cs : List (List Nat))
    (hmid : ∀ b ∈ mid, b < 0x80) (hne : cs ≠ []) (hcne : ∀ c ∈ cs, c ≠ [])
    (hpart : cs.flatten = ValidFrame mid) :
    processChunks initialRState cs = (initialRState, [ValidFrame mid]) := by
  cases cs with
  | nil => exact absurd rfl hne
  | cons c cs' =>
    have hc : c ≠ [] := hcne c (List.mem_cons_self _ _)
    cases cs' with
    | nil =>
      have hcf : c = ValidFrame mid := by simpa using hpart
      subst hcf
      rw [processChunks,
        processChunk_complete (validFrame_ne_nil mid) (validFrame_headD mid)
          (validFrame_getLastD mid)]
      simp [processChunks, initialRState]
    | cons c2 cs2 =>
      have hflat : c ++ (c2 :: cs2).flatten = ValidFrame mid := by
        simpa using hpart
      have hj : (c2 :: cs2).flatten ≠ [] :=
        flatten_ne_nil_of_forall_ne_nil (by simp)
          (fun x hx => hcne x (List.mem_cons_of_mem _ hx))
      have hchead : c.headD 0 = 0xF0 := by
        rw [← headD_append_left (r := (c2 :: cs2).flatten) hc 0, hflat]
        rfl
      have hfr : c ++ (c2 :: cs2).flatten = (0xF0 :: mid) ++ [0xF7] := by
        rw [hflat]
        rfl
      have hdrop : c ++ (c2 :: cs2).flatten.dropLast = 0xF0 :: mid := by
        have h1 : (c ++ (c2 :: cs2).flatten).dropLast
            = ((0xF0 :: mid) ++ [0xF7]).dropLast := by rw [hfr]
        rw [List.dropLast_concat, List.dropLast_append_of_ne_nil _ hj] at h1
        exact h1
      have hclast : c.getLastD 0 ≠ 0xF7 := by
        have hmem : c.getLastD 0 ∈ 0xF0 :: mid := by
          rw [← hdrop]
          exact List.mem_append_left _ (getLastD_mem hc 0)
        rcases List.mem_cons.mp hmem with h | h
        · omega
        · have := hmid _ h
          omega
      rw [processChunks, processChunk_start hc hchead hclast]
      have hsuf : (c2 :: cs2).flatten <:+ mid ++ [0xF7] := by
        obtain ⟨b, ct, rfl⟩ : ∃ b ct, c = b :: ct := by
          cases c with
          | nil => exact absurd rfl hc
          | cons b ct => exact ⟨b, ct, rfl⟩
        have hb : b = 0xF0 := by simpa using hchead
        subst hb
        refine ⟨ct, ?_⟩
        have := hflat
        rw [ValidFrame, List.cons_append] at this
        exact (List.cons_injective.eq_iff.mp this)
      have hres := processChunks_receiving mid hmid (c2 :: cs2) (by simp)
        (fun x hx => hcne x (List.mem_cons_of_mem _ hx)) c hflat hsuf
      simp [hres, initialRState]

theorem reassembler_partition_emits_once_witness :
    (∀ b ∈ [1, 2], b < 0x80) ∧
    processChunks initialRState [[0xF0, 1], [2, 0xF7]]
      = (initialRState, [ValidFrame [1, 2]]) :=
  ⟨by decide,
    reassembler_partition_emits_once [1, 2] [[0xF0, 1], [2, 0xF7]]
      (by decide) (by decide) (by decide) (by decide)⟩

/-- C2 counterexample: while Receiving with the non-empty partial buffer
`[0xF0, 0x01]`, a chunk that starts with `0xF0` and ends with `0xF7` does
not discard the partial buffer (Case 1 fires first and keeps the state),
and a subsequently emitted frame contains the stale byte `0x01` of that
partial buffer. -/
theorem receiving_start_counterexample :
    processChunk ⟨[0xF0, 0x01], true⟩ [0xF0, 0xF7]
      = (⟨[0xF0, 0x01], true⟩, some [0xF0, 0xF7]) ∧
    processChunks initialRState [[0xF0, 0x01], [0xF0, 0xF7], [0x02, 0xF7]]
      = (initialRState, [[0xF0, 0xF7], [0xF0, 0x01, 0x02, 0xF7]]) ∧
    0x01 ∈ [0xF0, 0x01, 0x02, 0xF7] := by
  refine ⟨by decide, by decide, by decide⟩

/-- C2 (amended): while Receiving with a non-empty partial buffer, a chunk
whose first byte is `0xF0` and whose last byte is not `0xF7` discards the
prior partial buffer and begins a fresh Receiving sequence holding only
that chunk; a chunk that both starts with `0xF0` and ends with `0xF7` is
instead emitted immediately as its own frame, leaving the partial buffer
and the Receiving flag unchanged. -/
theorem receiving_start_amended (st : RState) (data : List Nat)
    (_hrecv : st.isReceivingSysEx = true) (_hbuf : st.sysExBuffer ≠ [])
    (h : data ≠ []) (h1 : data.headD 0 = 0xF0) :
    (data.getLastD 0 ≠ 0xF7 → processChunk st data = (⟨data, true⟩, none)) ∧
    (data.getLastD 0 = 0xF7 → processChunk st data = (st, some data)) :=
  ⟨fun h2 => processChunk_start h h1 h2,
   fun h2 => processChunk_complete h h1 h2⟩

theorem receiving_start_amended_witness :
    processChunk ⟨[0xF0, 1], true⟩ [0xF0, 2] = (⟨[0xF0, 2], true⟩, none) :=
  (receiving_start_amended ⟨[0xF0, 1], true⟩ [0xF0, 2]
    (by decide) (by decide) (by decide) (by decide)).1 (by decide)

/-- State invariant of the reassembler: while Receiving, the buffer is
non-empty and starts with the start marker. -/
def RInv (st : RState) : Prop :=
  st.isReceivingSysEx = true → st.sysExBuffer ≠ [] ∧ st.sysExBuffer.headD 0 = 0xF0

theorem processChunk_preserves (st : RState) (c : List Nat) (h : RInv st) :
    RInv (processChunk st c).1 ∧
      ∀ m ∈ (processChunk st c).2,
        m ≠ [] ∧ m.headD 0 = 0xF0 ∧ m.getLastD 0 = 0xF7 := by
  obtain ⟨buf, flag⟩ := st
  by_cases hnil : c = []
  · subst hnil
    rw [processChunk]
    simp only [List.length_nil, if_pos rfl]
    exact ⟨h, by simp⟩
  · by_cases h1 : c.headD 0 = 0xF0
    · by_cases h2 : c.getLastD 0 = 0xF7
      · rw [processChunk_complete hnil h1 h2]
        refine ⟨h, ?_⟩
        intro m hm
        simp only [Option.mem_def, Option.some.injEq] at hm
        subst hm
        exact ⟨hnil, h1, h2⟩
      · rw [processChunk_start hnil h1 h2]
        refine ⟨?_, by simp⟩
        intro _
        exact ⟨hnil, h1⟩
    · by_cases hrecv : flag = true
      · subst hrecv
        obtain ⟨hbne, hbhead⟩ := h rfl
        by_cases h2 : c.getLastD 0 = 0xF7
        · rw [processChunk_append_end hnil h1 h2]
          refine ⟨by intro hcon; simp at hcon, ?_⟩
          intro m hm
          simp only [Option.mem_def, Option.some.injEq] at hm
          subst hm
          refine ⟨by simp [hbne], ?_, ?_⟩
          · rw [headD_append_left hbne]
            exact hbhead
          · rw [getLastD_append_right hnil]
            exact h2
        · rw [processChunk_append_mid hnil h1 h2]
          refine ⟨?_, by simp⟩
          intro _
          refine ⟨by simp [hbne], ?_⟩
          rw [headD_append_left hbne]
          exact hbhead
      · have hflag : flag = false := by simpa using hrecv
        subst hflag
        rw [processChunk_idle_ignore rfl h1]
        exact ⟨h, by simp⟩

theorem processChunks_preserves (cs : List (List Nat)) :
    ∀ st : RState, RInv st →
      RInv (processChunks st cs).1 ∧
        ∀ m ∈ (processChunks st cs).2,
          m ≠ [] ∧ m.headD 0 = 0xF0 ∧ m.getLastD 0 = 0xF7 := by
  induction cs with
  | nil =>
    intro st h
    exact ⟨h, by simp [processChunks]⟩
  | cons c cs' ih =>
    intro st h
    obtain ⟨hstep, hout⟩ := processChunk_preserves st c h
    obtain ⟨hrest, houts⟩ := ih (processChunk st c).1 hstep
    rw [processChunks]
    refine ⟨hrest, ?_⟩
    intro m hm
    rcases List.mem_append.mp hm with hm | hm
    · exact hout m (by simpa using hm)
    · exact houts m hm

/-- C3: from the initial state, every frame handed to the callback starts
with `0xF0` and ends with `0xF7`; and a chunk that does not start with
`0xF0` arriving while Idle produces no emission and leaves the state
unchanged. -/
theorem reassembler_emissions_marked (cs : List (List Nat)) :
    (∀ m ∈ (processChunks initialRState cs).2,
      m ≠ [] ∧ m.headD 0 = 0xF0 ∧ m.getLastD 0 = 0xF7) ∧
    (∀ (st : RState) (c : List Nat), st.isReceivingSysEx = false →
      c.headD 0 ≠ 0xF0 → processChunk st c = (st, none)) := by
  constructor
  · exact (processChunks_preserves cs initialRState (by intro h; simp [initialRState] at h)).2
  · intro st c hidle h1
    exact processChunk_idle_ignore hidle h1

theorem reassembler_emissions_marked_witness :
    ([0xF0, 1, 1, 0xF7] ≠ [] ∧ ([0xF0, 1, 1, 0xF7] : List Nat).headD 0 = 0xF0 ∧
      ([0xF0, 1, 1, 0xF7] : List Nat).getLastD 0 = 0xF7) ∧
    processChunk initialRState [5] = (initialRState, none) :=
  ⟨(reassembler_emissions_marked [[0xF0, 1], [1, 0xF7]]).1 [0xF0, 1, 1, 0xF7]
      (by decide),
   (reassembler_emissions_marked []).2 initialRState [5] (by decide) (by decide)⟩

end WebMidiAdapter

namespace ToneZoneEditor

/-- A contiguous zone of keys mapped to a single tone
(interface `ToneZone` of the tone zone editor). -/
structure ToneZone where
  startKey : Int
  endKey : Int
  tone : Int
deriving DecidableEq, Repr

/-- First MIDI note in the S-330 tone mapping. -/
def MIN_KEY : Int := 12

/-- Last MIDI note in the S-330 tone mapping. -/
def MAX_KEY : Int := 120

/-- Total number of keys in the mapping. -/
def TOTAL_KEYS : Nat := 109

/-- `layer === 1 ? -1 : 0` — the OFF sentinel of a layer. -/
def offValue (layer : Nat) : Int := if layer = 1 then -1 else 0

/--
The scanning loop of `arrayToZones`.  `i` is the loop index; the list is
the part of `data` from index `i` on.  Skips OFF entries; otherwise
coalesces the maximal run of entries equal to `data[i]` into one zone.
`fuel` bounds the number of outer-loop iterations so the recursion is
structural; every call site passes `fuel ≥ data.length`, making the
fuel-exhaustion case unreachable (each iteration consumes at least one
entry).
-/
def arrayToZonesGo (off : Int) : Nat → Nat → List Int → List ToneZone
  | 0, _, _ => []
  | _ + 1, _, [] => []
  | fuel + 1, i, v :: rest =>
    if v = off then
      arrayToZonesGo off fuel (i + 1) rest
    else
      let n := (rest.takeWhile (fun x => x == v)).length + 1
      ⟨MIN_KEY + (i : Int), MIN_KEY + (i : Int) + (n : Int) - 1, v⟩ ::
        arrayToZonesGo off fuel (i + n) (rest.dropWhile (fun x => x == v))

/-- Convert a 109-entry tone array to a list of zones.  The source loop
reads indices `0 ≤ i < TOTAL_KEYS` only, hence the `take`. -/
def arrayToZones (data : List Int) (layer : Nat) : List ToneZone :=
  arrayToZonesGo (offValue layer) (data.take TOTAL_KEYS).length 0
    (data.take TOTAL_KEYS)

/-- The integer range `[lo, hi]` iterated by a `for (key = lo; key <= hi;
key++)` loop. -/
def intRange (lo hi : Int) : List Int :=
  (List.range (hi + 1 - lo).toNat).map (fun n : Nat => lo + (n : Int))

/-- The inner loop of `zonesToArray`: write `tone` at `result[key - MIN_KEY]`
for every `key` in `[lo, hi]` whose index passes the bounds check. -/
def writeZoneFrom (tone lo hi : Int) (result : List Int) : List Int :=
  (intRange lo hi).foldl
    (fun r key =>
      let index := key - MIN_KEY
      if 0 ≤ index ∧ index < (TOTAL_KEYS : Int) then r.set index.toNat tone
      else r)
    result

/-- Write one zone into the result array. -/
def writeZone (result : List Int) (zone : ToneZone) : List Int :=
  writeZoneFrom zone.tone zone.startKey zone.endKey result

/-- Convert a list of zones back to a 109-entry array: initialize every
entry to the sentinel, then write the zones in order (later zones
override earlier ones). -/
def zonesToArray (zones : List ToneZone) (layer : Nat) : List Int :=
  zones.foldl writeZone (List.replicate TOTAL_KEYS (offValue layer))

theorem intRange_stop {lo hi : Int} (h : hi < lo) : intRange lo hi = [] := by
  rw [intRange]
  have h1 : (hi + 1 - lo).toNat = 0 := by omega
  rw [h1]
  rfl

theorem intRange_cons {lo hi : Int} (h : lo ≤ hi) :
    intRange lo hi = lo :: intRange (lo + 1) hi := by
  rw [intRange, intRange]
  have h1 : (hi + 1 - lo).toNat = (hi + 1 - (lo + 1)).toNat + 1 := by omega
  rw [h1, List.range_succ_eq_map]
  rw [List.map_cons, List.map_map]
  norm_num
  intro a _
  ring

theorem writeZoneFrom_stop {tone lo hi : Int} (h : hi < lo) (result : List Int) :
    writeZoneFrom tone lo hi result = result := by
  rw [writeZoneFrom, intRange_stop h, List.foldl_nil]

theorem writeZoneFrom_step {tone lo hi : Int} (h : lo ≤ hi) (result : List Int) :
    writeZoneFrom tone lo hi result =
      writeZoneFrom tone (lo + 1) hi
        (if 0 ≤ lo - 12 ∧ lo - 12 < 109 then result.set (lo - 12).toNat tone
         else result) := by
  rw [writeZoneFrom, intRange_cons h, List.foldl_cons, writeZoneFrom]
  simp only [MIN_KEY, TOTAL_KEYS]
  norm_num

theorem writeZoneFrom_length (tone hi : Int) :
    ∀ (fuel : Nat) (lo : Int), (hi + 1 - lo).toNat = fuel →
      ∀ result : List Int,
        (writeZoneFrom tone lo hi result).length = result.length := by
  intro fuel
  induction fuel with
  | zero =>
    intro lo hf result
    rw [writeZoneFrom_stop (by omega)]
  | succ fuel ih =>
    intro lo hf result
    rw [writeZoneFrom_step (by omega), ih (lo + 1) (by omega)]
    split <;> simp

theorem writeZoneFrom_getElem? (tone hi : Int) :
    ∀ (fuel : Nat) (lo : Int), (hi + 1 - lo).toNat = fuel →
      ∀ (result : List Int) (j : Nat), result.length = 109 → j < 109 →
        (writeZoneFrom tone lo hi result)[j]? =
          if lo ≤ 12 + (j : Int) ∧ 12 + (j : Int) ≤ hi then some tone
          else result[j]? := by
  intro fuel
  induction fuel with
  | zero =>
    intro lo hf result j hlen hj
    rw [writeZoneFrom_stop (by omega), if_neg (by omega)]
  | succ fuel ih =>
    intro lo hf result j hlen hj
    rw [writeZoneFrom_step (by omega)]
    have hlen' : (if 0 ≤ lo - 12 ∧ lo - 12 < 109
        then result.set (lo - 12).toNat tone else result).length = 109 := by
      split <;> simp [hlen]
    rw [ih (lo + 1) (by omega) _ j hlen' hj]
    by_cases hkey : 12 + (j : Int) = lo
    · rw [if_neg (by omega), if_pos (by constructor <;> omega)]
      rw [if_pos (by constructor <;> omega)]
      have hidx : (lo - 12).toNat = j := by omega
      rw [hidx]
      exact List.getElem?_set_self (by omega)
    · have hres : (if 0 ≤ lo - 12 ∧ lo - 12 < 109
          then result.set (lo - 12).toNat tone else result)[j]? = result[j]? := by
        split
        · exact List.getElem?_set_ne (by omega)
        · rfl
      rw [hres]
      by_cases hin : lo + 1 ≤ 12 + (j : Int) ∧ 12 + (j : Int) ≤ hi
      · rw [if_pos hin, if_pos (by omega)]
      · rw [if_neg hin, if_neg (by omega)]

theorem writeZone_length (result : List Int) (z : ToneZone) :
    (writeZone result z).length = result.length :=
  writeZoneFrom_length _ _ _ _ rfl _

theorem writeZone_getElem? {result : List Int} (hlen : result.length = 109)
    (z : ToneZone) {j : Nat} (hj : j < 109) :
    (writeZone result z)[j]? =
      if z.startKey ≤ 12 + (j : Int) ∧ 12 + (j : Int) ≤ z.endKey
      then some z.tone else result[j]? :=
  writeZoneFrom_getElem? _ _ _ _ rfl _ _ hlen hj

/-- A zone covers the key `k`. -/
def covers (z : ToneZone) (k : Int) : Prop := z.startKey ≤ k ∧ k ≤ z.endKey

theorem foldl_writeZone_length (zs : List ToneZone) :
    ∀ result : List Int, (zs.foldl writeZone result).length = result.length := by
  induction zs with
  | nil => intro result; rfl
  | cons z zs ih =>
    intro result
    rw [List.foldl_cons, ih, writeZone_length]

theorem foldl_writeZone_not_covered (zs : List ToneZone) :
    ∀ (result : List Int), result.length = 109 → ∀ j : Nat, j < 109 →
      (∀ z ∈ zs, ¬ covers z (12 + (j : Int))) →
      (zs.foldl writeZone result)[j]? = result[j]? := by
  induction zs with
  | nil => intro _ _ _ _ _; rfl
  | cons z zs ih =>
    intro result hlen j hj hnc
    rw [List.foldl_cons,
      ih _ (by rw [writeZone_length]; exact hlen) j hj
        (fun z' hz' => hnc z' (List.mem_cons_of_mem _ hz'))]
    rw [writeZone_getElem? hlen z hj, if_neg]
    exact fun hcond => hnc z (List.mem_cons_self _ _) hcond

theorem foldl_writeZone_covered (zs : List ToneZone) :
    ∀ (result : List Int), result.length = 109 → ∀ j : Nat, j < 109 →
      ∀ v : Int,
      (∀ z ∈ zs, covers z (12 + (j : Int)) → z.tone = v) →
      (∃ z ∈ zs, covers z (12 + (j : Int))) →
      (zs.foldl writeZone result)[j]? = some v := by
  induction zs with
  | nil =>
    intro _ _ _ _ _ _ hex
    simp at hex
  | cons z zs ih =>
    intro result hlen j hj v hall hex
    rw [List.foldl_cons]
    have hlen' : (writeZone result z).length = 109 := by
      rw [writeZone_length]
      exact hlen
    by_cases hzs : ∃ z' ∈ zs, covers z' (12 + (j : Int))
    · exact ih _ hlen' j hj v (fun z' hz' => hall z' (List.mem_cons_of_mem _ hz')) hzs
    · have hzc : covers z (12 + (j : Int)) := by
        rcases hex with ⟨z', hz', hcov⟩
        rcases List.mem_cons.mp hz' with rfl | hmem
        · exact hcov
        · exact absurd ⟨z', hmem, hcov⟩ hzs
      push_neg at hzs
      rw [foldl_writeZone_not_covered zs _ hlen' j hj hzs]
      rw [writeZone_getElem? hlen z hj, if_pos (⟨hzc.1, hzc.2⟩ : _ ∧ _),
        hall z (List.mem_cons_self _ _) hzc]

/-! Properties of the `arrayToZones` scan. -/

theorem run_getElem? {v : Int} {t d : List Int} (ht : ∀ x ∈ t, x = v) {j : Nat}
    (hj : j < t.length + 1) : (v :: (t ++ d))[j]? = some v := by
  cases j with
  | zero => simp
  | succ j' =>
    rw [List.getElem?_cons_succ, List.getElem?_append_left (by omega)]
    have hj' : j' < t.length := by omega
    rw [List.getElem?_eq_getElem hj']
    exact congrArg some (ht _ (List.getElem_mem hj'))

theorem run_getElem?_shift {v : Int} {t d : List Int} (j : Nat) :
    (v :: (t ++ d))[t.length + 1 + j]? = d[j]? := by
  have h1 : t.length + 1 + j = (t.length + j) + 1 := by omega
  rw [h1, List.getElem?_cons_succ, List.getElem?_append_right (by omega)]
  congr 1
  omega

/-- Every zone produced by the scan has a tone distinct from the
sentinel. -/
theorem arrayToZonesGo_tone_ne_off (off : Int) :
    ∀ (fuel i : Nat) (data : List Int), data.length ≤ fuel →
      ∀ z ∈ arrayToZonesGo off fuel i data, z.tone ≠ off := by
  intro fuel
  induction fuel with
  | zero =>
    intro i data hf z hz
    simp [arrayToZonesGo] at hz
  | succ fuel ih =>
    intro i data hf z hz
    cases data with
    | nil => simp [arrayToZonesGo] at hz
    | cons v rest =>
      rw [arrayToZonesGo] at hz
      by_cases hv : v = off
      · rw [if_pos hv] at hz
        exact ih (i + 1) rest (by simp at hf; omega) z hz
      · rw [if_neg hv] at hz
        rcases List.mem_cons.mp hz with h1 | h1
        · subst h1
          exact hv
        · refine ih _ _ ?_ z h1
          have hsplit := List.takeWhile_append_dropWhile (fun x => x == v) rest
          have hlen2 := congrArg List.length hsplit
          simp only [List.length_append] at hlen2
          simp at hf
          omega

/-- Every key covered by a zone produced by the scan corresponds to an
entry of `data` holding exactly that zone's tone. -/
theorem arrayToZonesGo_covered_matches (off : Int) :
    ∀ (fuel i : Nat) (data : List Int), data.length ≤ fuel →
      ∀ z ∈ arrayToZonesGo off fuel i data, ∀ k : Int,
        z.startKey ≤ k → k ≤ z.endKey →
        ∃ j : Nat, k = 12 + (i : Int) + (j : Int) ∧ data[j]? = some z.tone := by
  intro fuel
  induction fuel with
  | zero =>
    intro i data hf z hz
    simp [arrayToZonesGo] at hz
  | succ fuel ih =>
    intro i data hf z hz k hk1 hk2
    cases data with
    | nil => simp [arrayToZonesGo] at hz
    | cons v rest =>
      rw [arrayToZonesGo] at hz
      by_cases hv : v = off
      · rw [if_pos hv] at hz
        obtain ⟨j, hj1, hj2⟩ := ih (i + 1) rest (by simp at hf; omega) z hz k hk1 hk2
        refine ⟨j + 1, by push_cast at hj1 ⊢; omega, ?_⟩
        rw [List.getElem?_cons_succ]
        exact hj2
      · rw [if_neg hv] at hz
        have hsplit := List.takeWhile_append_dropWhile (fun x => x == v) rest
        have hlen : (rest.takeWhile (fun x => x == v)).length
            + (rest.dropWhile (fun x => x == v)).length = rest.length := by
          have h2 := congrArg List.length hsplit
          rw [List.length_append] at h2
          exact h2
        rcases List.mem_cons.mp hz with h1 | h1
        · -- the head zone: keys 12+i .. 12+i+n-1 all map to entries equal to v
          subst h1
          simp only [MIN_KEY] at hk1 hk2
          set n := (rest.takeWhile (fun x => x == v)).length + 1 with hn
          have hk1' : (12 : Int) + (i : Int) ≤ k := hk1
          have hk2' : k ≤ 12 + (i : Int) + (n : Int) - 1 := hk2
          refine ⟨(k - (12 + (i : Int))).toNat, by omega, ?_⟩
          have hidx : (k - (12 + (i : Int))).toNat < n := by omega
          have hrw : v :: rest
              = v :: (rest.takeWhile (fun x => x == v) ++ rest.dropWhile (fun x => x == v)) := by
            rw [hsplit]
          rw [hrw]
          exact run_getElem? (fun x hx => by
              have := List.mem_takeWhile_imp hx
              simpa using this)
            (by omega)
        · -- a zone of the recursive call, shifted by the run length
          obtain ⟨j, hj1, hj2⟩ := ih _ _ (by simp at hf; omega) z h1 k hk1 hk2
          set tl := (rest.takeWhile (fun x => x == v)).length with htl
          refine ⟨tl + 1 + j, by push_cast at hj1 ⊢; omega, ?_⟩
          have hrw : v :: rest
              = v :: (rest.takeWhile (fun x => x == v) ++ rest.dropWhile (fun x => x == v)) := by
            rw [hsplit]
          rw [hrw, run_getElem?_shift]
          exact hj2

/-- Every non-sentinel entry of `data` is covered by some zone produced
by the scan. -/
theorem arrayToZonesGo_entry_covered (off : Int) :
    ∀ (fuel i : Nat) (data : List Int), data.length ≤ fuel →
      ∀ (j : Nat) (v : Int), data[j]? = some v → v ≠ off →
        ∃ z ∈ arrayToZonesGo off fuel i data,
          z.startKey ≤ 12 + (i : Int) + (j : Int) ∧
            12 + (i : Int) + (j : Int) ≤ z.endKey := by
  intro fuel
  induction fuel with
  | zero =>
    intro i data hf j v hjv _
    have hdata : data = [] := List.length_eq_zero.mp (by omega)
    subst hdata
    simp at hjv
  | succ fuel ih =>
    intro i data hf j v hjv hvo
    cases data with
    | nil => simp at hjv
    | cons w rest =>
      rw [arrayToZonesGo]
      by_cases hw : w = off
      · rw [if_pos hw]
        cases j with
        | zero =>
          rw [List.getElem?_cons_zero] at hjv
          have hwv : w = v := Option.some.inj hjv
          subst hwv
          exact absurd hw hvo
        | succ j' =>
          rw [List.getElem?_cons_succ] at hjv
          obtain ⟨z, hz, hc1, hc2⟩ := ih (i + 1) rest (by simp at hf; omega) j' v hjv hvo
          exact ⟨z, hz, by push_cast at hc1 ⊢; omega, by push_cast at hc2 ⊢; omega⟩
      · rw [if_neg hw]
        have hsplit := List.takeWhile_append_dropWhile (fun x => x == w) rest
        set tl := (rest.takeWhile (fun x => x == w)).length with htl
        by_cases hjn : j < tl + 1
        · refine ⟨_, List.mem_cons_self _ _, ?_, ?_⟩
          · simp only [MIN_KEY]
            omega
          · simp only [MIN_KEY]
            push_cast
            omega
        · have hj' : j = tl + 1 + (j - (tl + 1)) := by omega
          have hjv' : (rest.dropWhile (fun x => x == w))[j - (tl + 1)]? = some v := by
            have hrw : w :: rest
                = w :: (rest.takeWhile (fun x => x == w) ++ rest.dropWhile (fun x => x == w)) := by
              rw [hsplit]
            rw [hrw, hj', run_getElem?_shift] at hjv
            exact hjv
          have hlen : tl + (rest.dropWhile (fun x => x == w)).length
              = rest.length := by
            have h2 := congrArg List.length hsplit
            rw [List.length_append] at h2
            exact h2
          obtain ⟨z, hz, hc1, hc2⟩ := ih (i + (tl + 1)) _ (by simp at hf; omega)
            (j - (tl + 1)) v hjv' hvo
          refine ⟨z, List.mem_cons_of_mem _ hz, ?_, ?_⟩
          · push_cast at hc1 ⊢
            omega
          · push_cast at hc2 ⊢
            omega

/-- C4: round-tripping any 109-entry integer array through the zone codec
is lossless: `zonesToArray (arrayToZones a, layer) = a` for layer 1
(sentinel `-1`) and layer 2 (sentinel `0`). -/
theorem zone_codec_array_roundtrip (data : List Int) (layer : Nat)
    (hlen : data.length = TOTAL_KEYS) (_hlayer : layer = 1 ∨ layer = 2) :
    zonesToArray (arrayToZones data layer) layer = data := by
  have hlen' : data.length = 109 := hlen
  have htake : data.take TOTAL_KEYS = data := by
    rw [← hlen]
    exact List.take_length data
  have hgo : arrayToZones data layer
      = arrayToZonesGo (offValue layer) 109 0 data := by
    rw [arrayToZones, htake, hlen']
  have hreplen : (List.replicate TOTAL_KEYS (offValue layer) : List Int).length
      = 109 := by simp [TOTAL_KEYS]
  apply List.ext_getElem?
  intro j
  by_cases hj : j < 109
  case neg =>
    rw [List.getElem?_eq_none (l := data) (by omega)]
    rw [List.getElem?_eq_none]
    rw [zonesToArray, foldl_writeZone_length]
    omega
  case pos =>
  have hjlt : j < data.length := by omega
  obtain ⟨v, hv⟩ : ∃ v, data[j]? = some v :=
    ⟨data[j], List.getElem?_eq_getElem hjlt⟩
  by_cases hvo : v = offValue layer
  · have hnc : ∀ z ∈ arrayToZones data layer, ¬ covers z (12 + (j : Int)) := by
      intro z hz hcov
      obtain ⟨j2, hj2, hdata⟩ := arrayToZonesGo_covered_matches (offValue layer)
        109 0 data (by omega) z (hgo ▸ hz) (12 + (j : Int)) hcov.1 hcov.2
      have hjj : j = j2 := by omega
      subst hjj
      rw [hv] at hdata
      have htone : v = z.tone := Option.some.inj hdata
      exact arrayToZonesGo_tone_ne_off (offValue layer) 109 0 data (by omega) z
        (hgo ▸ hz) (htone ▸ hvo)
    rw [zonesToArray, foldl_writeZone_not_covered _ _ hreplen j hj hnc, hv, hvo]
    rw [List.getElem?_replicate_of_lt (by simp [TOTAL_KEYS]; omega)]
  · have hex : ∃ z ∈ arrayToZones data layer, covers z (12 + (j : Int)) := by
      obtain ⟨z, hz, hc1, hc2⟩ := arrayToZonesGo_entry_covered (offValue layer)
        109 0 data (by omega) j v hv hvo
      exact ⟨z, hgo ▸ hz, by constructor <;> [omega; omega]⟩
    have hall : ∀ z ∈ arrayToZones data layer,
        covers z (12 + (j : Int)) → z.tone = v := by
      intro z hz hcov
      obtain ⟨j2, hj2, hdata⟩ := arrayToZonesGo_covered_matches (offValue layer)
        109 0 data (by omega) z (hgo ▸ hz) (12 + (j : Int)) hcov.1 hcov.2
      have hjj : j = j2 := by omega
      subst hjj
      rw [hv] at hdata
      exact (Option.some.inj hdata).symm
    rw [zonesToArray, foldl_writeZone_covered _ _ hreplen j hj v hall hex, hv]

theorem zone_codec_array_roundtrip_witness :
    (([5, 5, 5] ++ List.replicate 106 (-1) : List Int).length = TOTAL_KEYS) ∧
    zonesToArray (arrayToZones ([5, 5, 5] ++ List.replicate 106 (-1)) 1) 1
      = ([5, 5, 5] ++ List.replicate 106 (-1)) :=
  ⟨by decide,
    zone_codec_array_roundtrip ([5, 5, 5] ++ List.replicate 106 (-1)) 1
      (by decide) (Or.inl rfl)⟩

/-! Machinery for C5: reconstructing a well-formed zone list from the
array it writes. -/

/-- Well-formedness of a zone list relative to a lower key bound `pos`:
zones are sorted, non-overlapping, within bounds, carry non-sentinel
tones, and two key-adjacent zones never carry the same tone. -/
def ZonesOk (off : Int) : Int → List ToneZone → Prop
  | _, [] => True
  | pos, z :: rest =>
    pos ≤ z.startKey ∧ z.startKey ≤ z.endKey ∧ z.endKey ≤ 120 ∧
      z.tone ≠ off ∧
      (∀ z2, rest.head? = some z2 → z2.startKey = z.endKey + 1 →
        z2.tone ≠ z.tone) ∧
      ZonesOk off (z.endKey + 1) rest

/-- The array written by a well-formed zone list, as explicit segments:
a sentinel gap up to each zone's start, then the zone's constant run. -/
def segs (off : Int) : Int → List ToneZone → List Int
  | pos, [] => List.replicate (121 - pos).toNat off
  | pos, z :: rest =>
    List.replicate (z.startKey - pos).toNat off ++
      (List.replicate (z.endKey + 1 - z.startKey).toNat z.tone ++
        segs off (z.endKey + 1) rest)

theorem segs_length (off : Int) :
    ∀ (zs : List ToneZone) (pos : Int), ZonesOk off pos zs → pos ≤ 121 →
      (segs off pos zs).length = (121 - pos).toNat := by
  intro zs
  induction zs with
  | nil =>
    intro pos _ _
    rw [segs]
    simp
  | cons z rest ih =>
    intro pos hok hpos
    obtain ⟨h1, h2, h3, _, _, h6⟩ := hok
    rw [segs]
    simp only [List.length_append, List.length_replicate]
    rw [ih (z.endKey + 1) h6 (by omega)]
    omega

/-- The scan's result does not depend on the fuel, as long as the fuel
dominates the length of the remaining data. -/
theorem arrayToZonesGo_fuel_irrel (off : Int) :
    ∀ (fuel1 : Nat) (data : List Int) (i : Nat) (fuel2 : Nat),
      data.length ≤ fuel1 → data.length ≤ fuel2 →
      arrayToZonesGo off fuel1 i data = arrayToZonesGo off fuel2 i data := by
  intro fuel1
  induction fuel1 with
  | zero =>
    intro data i fuel2 h1 _
    have hdata : data = [] := List.length_eq_zero.mp (by omega)
    subst hdata
    cases fuel2 <;> rfl
  | succ fuel1 ih =>
    intro data i fuel2 h1 h2
    cases data with
    | nil => cases fuel2 <;> rfl
    | cons v rest =>
      cases fuel2 with
      | zero => simp at h2
      | succ fuel2 =>
        rw [arrayToZonesGo, arrayToZonesGo]
        by_cases hv : v = off
        · rw [if_pos hv, if_pos hv]
          exact ih rest (i + 1) fuel2 (by simp at h1; omega) (by simp at h2; omega)
        · rw [if_neg hv, if_neg hv]
          have hsplit := List.takeWhile_append_dropWhile (fun x => x == v) rest
          have hlen2 := congrArg List.length hsplit
          rw [List.length_append] at hlen2
          exact congrArg (List.cons _)
            (ih (rest.dropWhile (fun x => x == v))
              (i + ((rest.takeWhile (fun x => x == v)).length + 1)) fuel2
              (by simp at h1; omega) (by simp at h2; omega))

/-- The scan skips a leading block of sentinel entries, advancing the
index accordingly. -/
theorem arrayToZonesGo_skip_off (off : Int) :
    ∀ (m fuel i : Nat) (rest : List Int),
      m + rest.length ≤ fuel →
      arrayToZonesGo off fuel i (List.replicate m off ++ rest)
        = arrayToZonesGo off fuel (i + m) rest := by
  intro m
  induction m with
  | zero =>
    intro fuel i rest _
    simp
  | succ m ih =>
    intro fuel i rest h
    cases fuel with
    | zero => omega
    | succ fuel =>
      rw [List.replicate_succ, List.cons_append, arrayToZonesGo, if_pos rfl]
      rw [ih fuel (i + 1) rest (by omega)]
      rw [arrayToZonesGo_fuel_irrel off fuel rest (i + 1 + m) (fuel + 1)
        (by omega) (by omega)]
      have hidx : i + 1 + m = i + (m + 1) := by omega
      rw [hidx]

theorem head?_replicate_append {m : Nat} {a : Int} {r : List Int} (hm : 0 < m) :
    (List.replicate m a ++ r).head? = some a := by
  cases m with
  | zero => omega
  | succ m =>
    rw [List.replicate_succ, List.cons_append]
    rfl

theorem takeWhile_replicate_append {v : Int} {rest : List Int} (n : Nat)
    (h : ∀ x, rest.head? = some x → x ≠ v) :
    (List.replicate n v ++ rest).takeWhile (fun x => x == v)
      = List.replicate n v := by
  rw [List.takeWhile_append_of_pos
    (by intro a ha; simp [List.eq_of_mem_replicate ha])]
  have hnil : rest.takeWhile (fun x => x == v) = [] := by
    cases rest with
    | nil => rfl
    | cons r rs =>
      have hr : r ≠ v := h r rfl
      simp [List.takeWhile_cons, hr]
  rw [hnil, List.append_nil]

theorem dropWhile_replicate_append {v : Int} {rest : List Int} (n : Nat)
    (h : ∀ x, rest.head? = some x → x ≠ v) :
    (List.replicate n v ++ rest).dropWhile (fun x => x == v) = rest := by
  rw [List.dropWhile_append_of_pos
    (by intro a ha; simp [List.eq_of_mem_replicate ha])]
  cases rest with
  | nil => rfl
  | cons r rs =>
    have hr : r ≠ v := h r rfl
    simp [List.dropWhile_cons, hr]

/-- The scan coalesces a maximal constant run into exactly one zone. -/
theorem arrayToZonesGo_run (off : Int) {v : Int} (hv : v ≠ off) :
    ∀ (n fuel i : Nat) (rest : List Int),
      (∀ x, rest.head? = some x → x ≠ v) →
      n + 1 + rest.length ≤ fuel →
      arrayToZonesGo off fuel i (List.replicate (n + 1) v ++ rest)
        = ⟨12 + (i : Int), 12 + (i : Int) + (n : Int), v⟩ ::
            arrayToZonesGo off fuel (i + (n + 1)) rest := by
  intro n fuel i rest hh hf
  cases fuel with
  | zero => omega
  | succ fuel =>
    rw [List.replicate_succ, List.cons_append, arrayToZonesGo, if_neg hv]
    rw [takeWhile_replicate_append n hh, dropWhile_replicate_append n hh]
    simp only [List.length_replicate]
    have hzone : (⟨MIN_KEY + (i : Int), MIN_KEY + (i : Int) + ((n + 1 : Nat) : Int) - 1, v⟩
        : ToneZone) = ⟨12 + (i : Int), 12 + (i : Int) + (n : Int), v⟩ := by
      simp only [MIN_KEY]
      congr 1
      push_cast
      ring
    rw [hzone]
    congr 1
    exact arrayToZonesGo_fuel_irrel off fuel rest (i + (n + 1)) (fuel + 1)
      (by omega) (by omega)

/-- Under well-formedness, the head of the remaining segment image is
never the previous zone's tone. -/
theorem segs_head_ne (off t pos : Int) (zs : List ToneZone)
    (hok : ZonesOk off pos zs) (ht : t ≠ off)
    (hadj : ∀ z2, zs.head? = some z2 → z2.startKey = pos → z2.tone ≠ t) :
    ∀ x, (segs off pos zs).head? = some x → x ≠ t := by
  intro x hx
  cases zs with
  | nil =>
    rw [segs] at hx
    rcases Nat.eq_zero_or_pos (121 - pos).toNat with h0 | h0
    · rw [h0] at hx
      simp at hx
    · have := head?_replicate_append (a := off) (r := ([] : List Int)) h0
      rw [List.append_nil] at this
      rw [this] at hx
      have hxoff : x = off := (Option.some.inj hx).symm
      rw [hxoff]
      exact fun hc => ht hc.symm
  | cons z rest =>
    obtain ⟨h1, h2, _, _, _, _⟩ := hok
    rw [segs] at hx
    by_cases hgap : 0 < (z.startKey - pos).toNat
    · rw [head?_replicate_append hgap] at hx
      have hxoff : x = off := (Option.some.inj hx).symm
      rw [hxoff]
      exact fun hc => ht hc.symm
    · have hgap0 : (z.startKey - pos).toNat = 0 := by omega
      rw [hgap0] at hx
      simp only [List.replicate_zero, List.nil_append] at hx
      have hrun : 0 < (z.endKey + 1 - z.startKey).toNat := by omega
      rw [head?_replicate_append hrun] at hx
      have hxz : x = z.tone := (Option.some.inj hx).symm
      rw [hxz]
      exact hadj z rfl (by omega)

/-- Scanning the segment image of a well-formed zone list recovers the
zone list exactly. -/
theorem arrayToZonesGo_segs (off : Int) :
    ∀ (zs : List ToneZone) (i fuel : Nat),
      ZonesOk off (12 + (i : Int)) zs →
      (segs off (12 + (i : Int)) zs).length ≤ fuel →
      arrayToZonesGo off fuel i (segs off (12 + (i : Int)) zs) = zs := by
  intro zs
  induction zs with
  | nil =>
    intro i fuel _ hf
    rw [segs] at hf ⊢
    have hskip := arrayToZonesGo_skip_off off ((121 - (12 + (i : Int))).toNat)
      fuel i [] (by simpa using hf)
    rw [List.append_nil] at hskip
    rw [hskip]
    cases fuel <;> rfl
  | cons z rest ih =>
    intro i fuel hok hf
    obtain ⟨h1, h2, h3, h4, h5, h6⟩ := hok
    have hlenrest : (segs off (z.endKey + 1) rest).length
        = (121 - (z.endKey + 1)).toNat := segs_length off rest _ h6 (by omega)
    rw [segs] at hf ⊢
    simp only [List.length_append, List.length_replicate] at hf
    -- skip the sentinel gap before the zone
    rw [arrayToZonesGo_skip_off off ((z.startKey - (12 + (i : Int))).toNat) fuel i _
      (by simp [hlenrest]; omega)]
    -- consume the zone's run
    have hrun : (z.endKey + 1 - z.startKey).toNat
        = ((z.endKey + 1 - z.startKey).toNat - 1) + 1 := by omega
    rw [hrun, arrayToZonesGo_run off h4 _ fuel _ _
      (segs_head_ne off z.tone (z.endKey + 1) rest h6 h4
        (fun z2 hz2 hz2s => h5 z2 hz2 hz2s))
      (by rw [hlenrest]; omega)]
    -- the produced head zone is z itself
    have hi2 : (12 : Int) + ((i + (z.startKey - (12 + (i : Int))).toNat : Nat) : Int)
        = z.startKey := by push_cast; omega
    have hzone : (⟨12 + ((i + (z.startKey - (12 + (i : Int))).toNat : Nat) : Int),
        12 + ((i + (z.startKey - (12 + (i : Int))).toNat : Nat) : Int)
          + (((z.endKey + 1 - z.startKey).toNat - 1 : Nat) : Int), z.tone⟩
        : ToneZone) = z := by
      obtain ⟨zs1, ze1, zt1⟩ := z
      simp only at h1 h2 h3 hi2 ⊢
      simp only [ToneZone.mk.injEq]
      refine ⟨hi2, ?_, trivial⟩
      push_cast at hi2 ⊢
      omega
    rw [hzone]
    congr 1
    -- the recursive call is the induction hypothesis at the next gap
    have hi3 : (12 : Int) + ((i + (z.startKey - (12 + (i : Int))).toNat
        + ((z.endKey + 1 - z.startKey).toNat - 1 + 1) : Nat) : Int)
        = z.endKey + 1 := by push_cast; omega
    have hok3 : ZonesOk off (12 + ((i + (z.startKey - (12 + (i : Int))).toNat
        + ((z.endKey + 1 - z.startKey).toNat - 1 + 1) : Nat) : Int)) rest := by
      rw [hi3]
      exact h6
    have hres := ih _ fuel hok3 (by rw [hi3, hlenrest]; omega)
    rw [hi3] at hres
    exact hres

/-- Writing one in-bounds zone into a 109-entry array replaces exactly
the zone's segment, leaving the prefix and suffix untouched. -/
theorem writeZone_shape (result : List Int) (z : ToneZone)
    (hlen : result.length = 109) (h1 : 12 ≤ z.startKey)
    (h2 : z.startKey ≤ z.endKey) (h3 : z.endKey ≤ 120) :
    writeZone result z
      = result.take (z.startKey - 12).toNat
          ++ List.replicate (z.endKey + 1 - z.startKey).toNat z.tone
          ++ result.drop (z.endKey + 1 - 12).toNat := by
  have hA : (result.take (z.startKey - 12).toNat).length
      = (z.startKey - 12).toNat := by
    rw [List.length_take]
    omega
  have hC : (result.drop (z.endKey + 1 - 12).toNat).length
      = 109 - (z.endKey + 1 - 12).toNat := by
    rw [List.length_drop]
    omega
  apply List.ext_getElem?
  intro j
  by_cases hj : j < 109
  case neg =>
    rw [List.getElem?_eq_none (by rw [writeZone_length]; omega),
      List.getElem?_eq_none
        (by simp only [List.length_append, hA, hC, List.length_replicate]; omega)]
  case pos =>
  rw [writeZone_getElem? hlen z hj]
  by_cases hcov : z.startKey ≤ 12 + (j : Int) ∧ 12 + (j : Int) ≤ z.endKey
  · rw [if_pos hcov]
    rw [List.getElem?_append_left
      (by simp only [List.length_append, hA, List.length_replicate]; omega)]
    rw [List.getElem?_append_right (by rw [hA]; omega)]
    rw [hA, List.getElem?_replicate_of_lt (by omega)]
  · rw [if_neg hcov]
    by_cases hlow : (j : Int) + 12 < z.startKey
    · rw [List.getElem?_append_left
        (by simp only [List.length_append, hA, List.length_replicate]; omega),
        List.getElem?_append_left (by rw [hA]; omega),
        List.getElem?_take_of_lt (by omega)]
    · rw [List.getElem?_append_right
        (by simp only [List.length_append, hA, List.length_replicate]; omega),
        List.getElem?_drop]
      congr 1
      simp only [List.length_append, hA, List.length_replicate]
      omega

/-- Writing a well-formed zone list over an already-written prefix `P`
followed by sentinels produces `P` followed by the zones' segment
image. -/
theorem foldl_writeZone_segs (off : Int) :
    ∀ (zs : List ToneZone) (pos : Int) (P : List Int),
      ZonesOk off pos zs → 12 ≤ pos → pos ≤ 121 →
      P.length = (pos - 12).toNat →
      zs.foldl writeZone (P ++ List.replicate (121 - pos).toNat off)
        = P ++ segs off pos zs := by
  intro zs
  induction zs with
  | nil =>
    intro pos P _ _ _ _
    rw [List.foldl_nil, segs]
  | cons z rest ih =>
    intro pos P hok hp1 hp2 hP
    obtain ⟨h1, h2, h3, h4, h5, h6⟩ := hok
    rw [List.foldl_cons]
    have hlen : (P ++ List.replicate (121 - pos).toNat off).length = 109 := by
      simp only [List.length_append, List.length_replicate, hP]
      omega
    rw [writeZone_shape _ z hlen (by omega) h2 h3]
    have htake : (P ++ List.replicate (121 - pos).toNat off).take
          (z.startKey - 12).toNat
        = P ++ List.replicate (z.startKey - pos).toNat off := by
      rw [List.take_append_eq_append_take, List.take_of_length_le (by omega),
        List.take_replicate]
      congr 2
      omega
    have hdrop : (P ++ List.replicate (121 - pos).toNat off).drop
          (z.endKey + 1 - 12).toNat
        = List.replicate (121 - (z.endKey + 1)).toNat off := by
      rw [List.drop_append_eq_append_drop, List.drop_of_length_le (by omega),
        List.drop_replicate, List.nil_append]
      congr 1
      omega
    rw [htake, hdrop]
    have hres := ih (z.endKey + 1)
      (P ++ List.replicate (z.startKey - pos).toNat off
        ++ List.replicate (z.endKey + 1 - z.startKey).toNat z.tone)
      h6 (by omega) (by omega)
      (by simp only [List.length_append, List.length_replicate, hP]; omega)
    rw [hres, segs]
    simp [List.append_assoc]

/-- C5 counterexample: a zone whose tone equals the layer-2 sentinel
satisfies the claim's hypotheses (singleton, sorted, in bounds,
well-formed) but vanishes on round-trip. -/
theorem zone_codec_zones_counterexample :
    arrayToZones (zonesToArray [⟨12, 12, 0⟩] 2) 2 ≠ [⟨12, 12, 0⟩] := by
  decide

/-- C5 (amended): round-tripping Zone-list → array → Zone-list is
lossless for any sorted list of non-overlapping zones with well-formed
bounds inside 12..120 whose tones differ from the layer's sentinel and
in which two key-adjacent zones never carry the same tone. -/
theorem zone_codec_zones_roundtrip (zs : List ToneZone) (layer : Nat)
    (_hlayer : layer = 1 ∨ layer = 2)
    (hok : ZonesOk (offValue layer) MIN_KEY zs) :
    arrayToZones (zonesToArray zs layer) layer = zs := by
  have hok12 : ZonesOk (offValue layer) 12 zs := hok
  have harr : zonesToArray zs layer = segs (offValue layer) 12 zs := by
    have hres := foldl_writeZone_segs (offValue layer) zs 12 []
      hok12 (by norm_num) (by norm_num) (by simp)
    rw [List.nil_append, List.nil_append] at hres
    have h109 : ((121 : Int) - 12).toNat = TOTAL_KEYS := by
      decide
    rw [h109] at hres
    rw [zonesToArray]
    exact hres
  have hseglen : (segs (offValue layer) 12 zs).length = 109 := by
    rw [segs_length (offValue layer) zs 12 hok12 (by norm_num)]
    decide
  have hlen : (zonesToArray zs layer).length = 109 := by
    rw [harr]
    exact hseglen
  rw [arrayToZones]
  have htake : (zonesToArray zs layer).take TOTAL_KEYS
      = zonesToArray zs layer := by
    apply List.take_of_length_le
    rw [hlen]
    norm_num [TOTAL_KEYS]
  rw [htake, hlen, harr]
  have hok0 : ZonesOk (offValue layer) (12 + ((0 : Nat) : Int)) zs := by
    simpa using hok12
  have hres := arrayToZonesGo_segs (offValue layer) zs 0 109 hok0
    (by simp [hseglen])
  simpa using hres

theorem zone_codec_zones_roundtrip_witness :
    ZonesOk (offValue 1) MIN_KEY [⟨12, 14, 5⟩, ⟨15, 20, 3⟩] ∧
    arrayToZones (zonesToArray [⟨12, 14, 5⟩, ⟨15, 20, 3⟩] 1) 1
      = [⟨12, 14, 5⟩, ⟨15, 20, 3⟩] := by
  have hok : ZonesOk (offValue 1) MIN_KEY [⟨12, 14, 5⟩, ⟨15, 20, 3⟩] := by
    rw [ZonesOk]
    refine ⟨by norm_num [MIN_KEY], by norm_num, by norm_num,
      by norm_num [offValue], ?_, ?_⟩
    · intro z2 hz2 _
      have hz : z2 = ⟨15, 20, 3⟩ := (Option.some.inj hz2).symm
      subst hz
      norm_num
    · rw [ZonesOk]
      refine ⟨by norm_num, by norm_num, by norm_num,
        by norm_num [offValue], ?_, trivial⟩
      intro z2 hz2
      simp at hz2
  exact ⟨hok, zone_codec_zones_roundtrip _ 1 (Or.inl rfl) hok⟩

end ToneZoneEditor

namespace EnvelopeEditor

/-- The S-330 8-point envelope (`S330Envelope`): 8 level values, 8 rate
values, a sustain point and an end point. -/
structure S330Envelope where
  levels : List Int
  rates : List Int
  sustainPoint : Int
  endPoint : Int
deriving DecidableEq, Repr

/-- `updateLevel` of the envelope editor. -/
def updateLevel (env : S330Envelope) (index : Nat) (value : Int) :
    S330Envelope :=
  { env with levels := env.levels.set index value }

/-- `updateRate`: `newRates[index] = Math.max(1, value)` — rate minimum
is 1. -/
def updateRate (env : S330Envelope) (index : Nat) (value : Int) :
    S330Envelope :=
  { env with rates := env.rates.set index (max 1 value) }

/-- `updateLevelAndRate`: combined level+rate update used by drag. -/
def updateLevelAndRate (env : S330Envelope) (index : Nat)
    (level rate : Int) : S330Envelope :=
  { env with levels := env.levels.set index level,
             rates := env.rates.set index (max 1 rate) }

/-- `updateSustainPoint`: `sustainPoint = Math.min(value, endPoint - 1)`. -/
def updateSustainPoint (env : S330Envelope) (value : Int) : S330Envelope :=
  { env with sustainPoint := min value (env.endPoint - 1) }

/-- `updateEndPoint`: sets the end point and clamps the sustain point to
`Math.min(sustainPoint, value - 1)`. -/
def updateEndPoint (env : S330Envelope) (value : Int) : S330Envelope :=
  { env with endPoint := value,
             sustainPoint := min env.sustainPoint (value - 1) }

/-- One call to a sustain-point or end-point mutation API, with its
argument. -/
inductive PointOp where
  | updSustain (value : Int)
  | updEnd (value : Int)
deriving DecidableEq, Repr

def applyPointOp (env : S330Envelope) : PointOp → S330Envelope
  | .updSustain v => updateSustainPoint env v
  | .updEnd v => updateEndPoint env v

def applyPointOps (env : S330Envelope) (ops : List PointOp) : S330Envelope :=
  ops.foldl applyPointOp env

/-- The argument lies in the range selectable in the UI (sustain options
0..7, end options 1..8). -/
def opInRange : PointOp → Prop
  | .updSustain v => 0 ≤ v ∧ v ≤ 7
  | .updEnd v => 1 ≤ v ∧ v ≤ 8

theorem sustain_lt_end_step (env : S330Envelope) (op : PointOp)
    (_h0 : env.sustainPoint < env.endPoint) :
    (applyPointOp env op).sustainPoint < (applyPointOp env op).endPoint := by
  cases op with
  | updSustain v =>
    simp only [applyPointOp, updateSustainPoint]
    omega
  | updEnd v =>
    simp only [applyPointOp, updateEndPoint]
    omega

theorem sustain_lt_end_aux (ops : List PointOp) :
    ∀ env : S330Envelope, env.sustainPoint < env.endPoint →
      (ops.foldl applyPointOp env).sustainPoint
        < (ops.foldl applyPointOp env).endPoint := by
  induction ops with
  | nil =>
    intro env h0
    exact h0
  | cons op ops ih =>
    intro env h0
    rw [List.foldl_cons]
    exact ih _ (sustain_lt_end_step env op h0)

instance decidableOpInRange : DecidablePred opInRange := fun op => by
  cases op <;> simp only [opInRange] <;> infer_instance

/-- C6: from any envelope with `sustainPoint < endPoint` and
`endPoint ≥ 1`, every finite sequence of `updateSustainPoint` /
`updateEndPoint` calls with arguments from their selectable ranges, in
any order, preserves `sustainPoint < endPoint` — so every envelope
handed to `onChange` satisfies the invariant. -/
theorem sustain_lt_end_invariant (env : S330Envelope) (ops : List PointOp)
    (h0 : env.sustainPoint < env.endPoint) (_h1 : 1 ≤ env.endPoint)
    (_hops : ∀ op ∈ ops, opInRange op) :
    (applyPointOps env ops).sustainPoint
      < (applyPointOps env ops).endPoint := by
  rw [applyPointOps]
  exact sustain_lt_end_aux ops env h0

theorem sustain_lt_end_invariant_witness :
    ((⟨List.replicate 8 0, List.replicate 8 1, 0, 8⟩ : S330Envelope).sustainPoint
        < (⟨List.replicate 8 0, List.replicate 8 1, 0, 8⟩ : S330Envelope).endPoint) ∧
    (applyPointOps ⟨List.replicate 8 0, List.replicate 8 1, 0, 8⟩
        [.updEnd 1, .updSustain 7]).sustainPoint
      < (applyPointOps ⟨List.replicate 8 0, List.replicate 8 1, 0, 8⟩
        [.updEnd 1, .updSustain 7]).endPoint :=
  ⟨by decide,
    sustain_lt_end_invariant ⟨List.replicate 8 0, List.replicate 8 1, 0, 8⟩
      [.updEnd 1, .updSustain 7] (by decide) (by decide) (by decide)⟩

/-- C7 counterexample: `updateRate` clamps only from below; a rate value
above 127 is stored unchanged, leaving a rate outside 1..127 in the
envelope handed to `onChange`. -/
theorem rate_range_counterexample :
    (∀ r ∈ (⟨List.replicate 8 0, List.replicate 8 1, 0, 8⟩
        : S330Envelope).rates, 1 ≤ r ∧ r ≤ 127) ∧
    ∃ r ∈ (updateRate ⟨List.replicate 8 0, List.replicate 8 1, 0, 8⟩
        0 200).rates, ¬ (1 ≤ r ∧ r ≤ 127) := by
  refine ⟨by decide, by decide⟩

/-- C7 (amended): after `updateRate`/`updateLevelAndRate` every rate is
at least 1 for an arbitrary integer argument; the upper bound 127 is
preserved only when the supplied rate value is itself at most 127. -/
theorem rate_range_amended (env : S330Envelope) (index : Nat)
    (value level rate : Int)
    (hr : ∀ r ∈ env.rates, 1 ≤ r ∧ r ≤ 127) :
    (∀ r ∈ (updateRate env index value).rates, 1 ≤ r) ∧
    (∀ r ∈ (updateLevelAndRate env index level rate).rates, 1 ≤ r) ∧
    (value ≤ 127 →
      ∀ r ∈ (updateRate env index value).rates, 1 ≤ r ∧ r ≤ 127) ∧
    (rate ≤ 127 →
      ∀ r ∈ (updateLevelAndRate env index level rate).rates,
        1 ≤ r ∧ r ≤ 127) := by
  refine ⟨?_, ?_, ?_, ?_⟩
  · intro r hmem
    rcases List.mem_or_eq_of_mem_set hmem with h | h
    · exact (hr r h).1
    · omega
  · intro r hmem
    rcases List.mem_or_eq_of_mem_set hmem with h | h
    · exact (hr r h).1
    · omega
  · intro hv r hmem
    rcases List.mem_or_eq_of_mem_set hmem with h | h
    · exact hr r h
    · omega
  · intro hv r hmem
    rcases List.mem_or_eq_of_mem_set hmem with h | h
    · exact hr r h
    · omega

theorem rate_range_amended_witness :
    (∀ r ∈ (⟨List.replicate 8 0, List.replicate 8 1, 0, 8⟩
        : S330Envelope).rates, 1 ≤ r ∧ r ≤ 127) ∧
    ∀ r ∈ (updateRate ⟨List.replicate 8 0, List.replicate 8 1, 0, 8⟩
        0 127).rates, 1 ≤ r ∧ r ≤ 127 :=
  ⟨by decide,
    (rate_range_amended ⟨List.replicate 8 0, List.replicate 8 1, 0, 8⟩
      0 127 0 127 (by decide)).2.2.1 (by decide)⟩

end EnvelopeEditor

namespace DeviceDataStore

def PATCHES_PER_BANK : Nat := 8
def TONES_PER_BANK : Nat := 8
def TOTAL_PATCHES : Nat := 16
def TOTAL_TONES : Nat := 32

/-- The state of the zustand device-data store.  `P` and `T` are the
patch and tone record types (`S330Patch` / `S330Tone`), opaque to the
store logic; sparse arrays are lists of options (`undefined` = not
loaded). -/
structure DeviceDataState (P T : Type) where
  patches : List (Option P)
  tones : List (Option T)
  loadedPatchBanks : List Nat
  loadedToneBanks : List Nat
deriving DecidableEq, Repr

variable {P T : Type}

/-- The store's initial state: everything empty. -/
def initialState : DeviceDataState P T := ⟨[], [], [], []⟩

/-- `while (l.length < n) l.push(undefined)`. -/
def padTo {α : Type} (n : Nat) (l : List (Option α)) : List (Option α) :=
  l ++ List.replicate (n - l.length) none

/-- `setPatch`: pad to `TOTAL_PATCHES`, then write at `index`. -/
def setPatch (st : DeviceDataState P T) (index : Nat) (patch : P) :
    DeviceDataState P T :=
  { st with patches := (padTo TOTAL_PATCHES st.patches).set index (some patch) }

def setPatches (st : DeviceDataState P T) (patches : List (Option P)) :
    DeviceDataState P T :=
  { st with patches := patches }

/-- `markPatchBankLoaded`: no-op when the bank is already recorded,
otherwise append it. -/
def markPatchBankLoaded (st : DeviceDataState P T) (bankIndex : Nat) :
    DeviceDataState P T :=
  if st.loadedPatchBanks.contains bankIndex then st
  else { st with loadedPatchBanks := st.loadedPatchBanks ++ [bankIndex] }

def isPatchBankLoaded (st : DeviceDataState P T) (bankIndex : Nat) : Bool :=
  st.loadedPatchBanks.contains bankIndex

/-- `invalidatePatchCache`: clears the patch records and the
loaded-patch-bank set in one `set` call; the tone fields are untouched
(zustand merges partial state). -/
def invalidatePatchCache (st : DeviceDataState P T) : DeviceDataState P T :=
  { st with patches := [], loadedPatchBanks := [] }

/-- `setTone`: pad to `TOTAL_TONES`, then write at `index`. -/
def setTone (st : DeviceDataState P T) (index : Nat) (tone : T) :
    DeviceDataState P T :=
  { st with tones := (padTo TOTAL_TONES st.tones).set index (some tone) }

def setTones (st : DeviceDataState P T) (tones : List (Option T)) :
    DeviceDataState P T :=
  { st with tones := tones }

def markToneBankLoaded (st : DeviceDataState P T) (bankIndex : Nat) :
    DeviceDataState P T :=
  if st.loadedToneBanks.contains bankIndex then st
  else { st with loadedToneBanks := st.loadedToneBanks ++ [bankIndex] }

def isToneBankLoaded (st : DeviceDataState P T) (bankIndex : Nat) : Bool :=
  st.loadedToneBanks.contains bankIndex

/-- `invalidateToneCache`: clears the tone records and the
loaded-tone-bank set in one `set` call. -/
def invalidateToneCache (st : DeviceDataState P T) : DeviceDataState P T :=
  { st with tones := [], loadedToneBanks := [] }

/-- `invalidateAllCache`: clears all four collections in one `set`
call. -/
def invalidateAllCache (st : DeviceDataState P T) : DeviceDataState P T :=
  { st with patches := [], tones := [],
            loadedPatchBanks := [], loadedToneBanks := [] }

def ensurePatchArraySize (st : DeviceDataState P T) : DeviceDataState P T :=
  if TOTAL_PATCHES ≤ st.patches.length then st
  else { st with patches := padTo TOTAL_PATCHES st.patches }

def ensureToneArraySize (st : DeviceDataState P T) : DeviceDataState P T :=
  if TOTAL_TONES ≤ st.tones.length then st
  else { st with tones := padTo TOTAL_TONES st.tones }

/-- C9: each cache invalidation clears its records and its loaded-bank
set together in the single returned state transition, leaves the other
collection's records and loaded-bank set unchanged, and
`invalidateAllCache` clears all four together. -/
theorem invalidate_clears_together (st : DeviceDataState P T) :
    invalidateToneCache st
        = { st with tones := [], loadedToneBanks := [] } ∧
    (invalidateToneCache st).patches = st.patches ∧
    (invalidateToneCache st).loadedPatchBanks = st.loadedPatchBanks ∧
    invalidatePatchCache st
        = { st with patches := [], loadedPatchBanks := [] } ∧
    (invalidatePatchCache st).tones = st.tones ∧
    (invalidatePatchCache st).loadedToneBanks = st.loadedToneBanks ∧
    invalidateAllCache st
        = ⟨[], [], [], []⟩ :=
  ⟨rfl, rfl, rfl, rfl, rfl, rfl, rfl⟩

/-- One store action, as dispatched by consumers. -/
inductive StoreOp (P T : Type) where
  | setPatch (index : Nat) (patch : P)
  | setPatches (patches : List (Option P))
  | markPatchBankLoaded (bankIndex : Nat)
  | invalidatePatchCache
  | setTone (index : Nat) (tone : T)
  | setTones (tones : List (Option T))
  | markToneBankLoaded (bankIndex : Nat)
  | invalidateToneCache
  | invalidateAllCache
  | ensurePatchArraySize
  | ensureToneArraySize
deriving DecidableEq

def applyStoreOp (st : DeviceDataState P T) : StoreOp P T → DeviceDataState P T
  | .setPatch index patch => setPatch st index patch
  | .setPatches patches => setPatches st patches
  | .markPatchBankLoaded bankIndex => markPatchBankLoaded st bankIndex
  | .invalidatePatchCache => invalidatePatchCache st
  | .setTone index tone => setTone st index tone
  | .setTones tones => setTones st tones
  | .markToneBankLoaded bankIndex => markToneBankLoaded st bankIndex
  | .invalidateToneCache => invalidateToneCache st
  | .invalidateAllCache => invalidateAllCache st
  | .ensurePatchArraySize => ensurePatchArraySize st
  | .ensureToneArraySize => ensureToneArraySize st

def applyStoreOps (st : DeviceDataState P T) (ops : List (StoreOp P T)) :
    DeviceDataState P T :=
  ops.foldl applyStoreOp st

theorem nodup_append_singleton {l : List Nat} {b : Nat} (hl : l.Nodup)
    (hb : ¬ b ∈ l) : (l ++ [b]).Nodup := by
  rw [List.nodup_append]
  refine ⟨hl, List.nodup_singleton b, ?_⟩
  intro a ha hab
  simp only [List.mem_singleton] at hab
  exact hb (hab ▸ ha)

theorem applyStoreOp_nodup (st : DeviceDataState P T) (op : StoreOp P T)
    (h1 : st.loadedPatchBanks.Nodup) (h2 : st.loadedToneBanks.Nodup) :
    (applyStoreOp st op).loadedPatchBanks.Nodup ∧
      (applyStoreOp st op).loadedToneBanks.Nodup := by
  cases op with
  | markPatchBankLoaded bankIndex =>
    rw [applyStoreOp, markPatchBankLoaded]
    by_cases hmem : st.loadedPatchBanks.contains bankIndex
    · rw [if_pos hmem]
      exact ⟨h1, h2⟩
    · rw [if_neg hmem]
      refine ⟨nodup_append_singleton h1 ?_, h2⟩
      simpa using hmem
  | markToneBankLoaded bankIndex =>
    rw [applyStoreOp, markToneBankLoaded]
    by_cases hmem : st.loadedToneBanks.contains bankIndex
    · rw [if_pos hmem]
      exact ⟨h1, h2⟩
    · rw [if_neg hmem]
      refine ⟨h1, nodup_append_singleton h2 ?_⟩
      simpa using hmem
  | setPatch index patch => exact ⟨h1, h2⟩
  | setPatches patches => exact ⟨h1, h2⟩
  | invalidatePatchCache => exact ⟨List.nodup_nil, h2⟩
  | setTone index tone => exact ⟨h1, h2⟩
  | setTones tones => exact ⟨h1, h2⟩
  | invalidateToneCache => exact ⟨h1, List.nodup_nil⟩
  | invalidateAllCache => exact ⟨List.nodup_nil, List.nodup_nil⟩
  | ensurePatchArraySize =>
    rw [applyStoreOp, ensurePatchArraySize]
    split <;> exact ⟨h1, h2⟩
  | ensureToneArraySize =>
    rw [applyStoreOp, ensureToneArraySize]
    split <;> exact ⟨h1, h2⟩

theorem applyStoreOps_nodup (ops : List (StoreOp P T)) :
    ∀ st : DeviceDataState P T,
      st.loadedPatchBanks.Nodup → st.loadedToneBanks.Nodup →
      (applyStoreOps st ops).loadedPatchBanks.Nodup ∧
        (applyStoreOps st ops).loadedToneBanks.Nodup := by
  induction ops with
  | nil =>
    intro st h1 h2
    exact ⟨h1, h2⟩
  | cons op ops ih =>
    intro st h1 h2
    obtain ⟨h1', h2'⟩ := applyStoreOp_nodup st op h1 h2
    exact ih _ h1' h2'

/-- C10: marking a bank loaded is idempotent when the bank is already
recorded, and from the empty store no sequence of store operations ever
produces a duplicate in either loaded-bank list. -/
theorem mark_bank_idempotent_no_dup (st : DeviceDataState P T)
    (bankIndex : Nat) :
    (bankIndex ∈ st.loadedToneBanks → markToneBankLoaded st bankIndex = st) ∧
    (bankIndex ∈ st.loadedPatchBanks → markPatchBankLoaded st bankIndex = st) ∧
    ∀ ops : List (StoreOp P T),
      (applyStoreOps initialState ops).loadedToneBanks.Nodup ∧
        (applyStoreOps initialState ops).loadedPatchBanks.Nodup := by
  refine ⟨?_, ?_, ?_⟩
  · intro hmem
    rw [markToneBankLoaded, if_pos (by simpa using hmem)]
  · intro hmem
    rw [markPatchBankLoaded, if_pos (by simpa using hmem)]
  · intro ops
    obtain ⟨h1, h2⟩ := applyStoreOps_nodup ops initialState
      List.nodup_nil List.nodup_nil
    exact ⟨h2, h1⟩

theorem mark_bank_idempotent_no_dup_witness :
    ((0 : Nat) ∈ (⟨[], [], [], [0]⟩ : DeviceDataState Nat Nat).loadedToneBanks) ∧
    markToneBankLoaded (⟨[], [], [], [0]⟩ : DeviceDataState Nat Nat) 0
      = ⟨[], [], [], [0]⟩ ∧
    (applyStoreOps (initialState : DeviceDataState Nat Nat)
      [.markToneBankLoaded 0, .markToneBankLoaded 0]).loadedToneBanks.Nodup :=
  ⟨by decide,
    (mark_bank_idempotent_no_dup (⟨[], [], [], [0]⟩ : DeviceDataState Nat Nat)
      0).1 (by decide),
    ((mark_bank_idempotent_no_dup (initialState : DeviceDataState Nat Nat)
      0).2.2 [.markToneBankLoaded 0, .markToneBankLoaded 0]).1⟩

end DeviceDataStore

namespace TonesPage

open DeviceDataStore

/-- The slice of the `s330Store` UI state touched by `loadToneBank`:
`setLoading`, `setError` (progress bookkeeping is orthogonal to the
claim and omitted). -/
structure UIState where
  isLoading : Bool
  loadingMessage : String
  error : Option String
deriving DecidableEq, Repr

/-- Outcome of the awaited client calls inside `loadToneBank`'s `try`
block: `connect()` may reject; otherwise `loadToneRange` either resolves
after delivering all items via the per-item callback, or rejects (e.g. a
checksum failure or timeout) after delivering a prefix of the items.
Each delivered item is applied through the store's `setTone`. -/
inductive ClientOutcome (T : Type) where
  | connectFailure (message : String)
  | loadFailure (delivered : List (Nat × T)) (message : String)
  | loadSuccess (delivered : List (Nat × T))
deriving DecidableEq

variable {P T : Type}

/-- Deliver the per-item callbacks: `(index, tone) => setTone(index, tone)`. -/
def deliverItems (st : DeviceDataState P T) (items : List (Nat × T)) :
    DeviceDataState P T :=
  items.foldl (fun s it => setTone s it.1 it.2) st

/--
`TonesPage.loadToneBank(bankIndex, forceReload)`: with no client it
returns at once; otherwise it sets loading, clears the error, ensures
the tone array size, connects and loads the bank's range.  On success it
marks the bank loaded and clears the loading flag; on rejection the
`catch` block stores the message via `setError` and clears the loading
flag — the rejection is not re-thrown, so the function always returns a
state.
-/
def loadToneBank (st : DeviceDataState P T) (ui : UIState) (bankIndex : Nat)
    (forceReload : Bool) (hasClient : Bool) (outcome : ClientOutcome T) :
    DeviceDataState P T × UIState :=
  if !hasClient then (st, ui)
  else
    let ui1 : UIState :=
      { isLoading := true,
        loadingMessage := if forceReload then "Reloading tones" else "Loading tones",
        error := none }
    let st1 := ensureToneArraySize st
    match outcome with
    | .connectFailure msg =>
      (st1, { ui1 with isLoading := false, error := some msg })
    | .loadFailure delivered msg =>
      (deliverItems st1 delivered,
        { ui1 with isLoading := false, error := some msg })
    | .loadSuccess delivered =>
      (markToneBankLoaded (deliverItems st1 delivered) bankIndex,
        { ui1 with isLoading := false })

theorem deliverItems_loadedToneBanks (items : List (Nat × T)) :
    ∀ st : DeviceDataState P T,
      (deliverItems st items).loadedToneBanks = st.loadedToneBanks := by
  induction items with
  | nil =>
    intro st
    rfl
  | cons it items ih =>
    intro st
    rw [deliverItems, List.foldl_cons]
    exact ih (setTone st it.1 it.2)

theorem ensureToneArraySize_loadedToneBanks (st : DeviceDataState P T) :
    (ensureToneArraySize st).loadedToneBanks = st.loadedToneBanks := by
  rw [ensureToneArraySize]
  split <;> rfl

theorem mem_markToneBankLoaded (st : DeviceDataState P T) (b bankIndex : Nat) :
    b ∈ (markToneBankLoaded st bankIndex).loadedToneBanks ↔
      b ∈ st.loadedToneBanks ∨ b = bankIndex := by
  rw [markToneBankLoaded]
  by_cases hmem : st.loadedToneBanks.contains bankIndex
  · rw [if_pos hmem]
    constructor
    · exact fun h => Or.inl h
    · rintro (h | rfl)
      · exact h
      · simpa using hmem
  · rw [if_neg hmem]
    simp

/-- C8: with a client available, `loadToneBank` marks `bankIndex` loaded
if and only if `loadToneRange` resolves successfully; when `loadToneRange`
(or `connect`) rejects, the bank stays unmarked and the failure message
is reported through `setError` in the returned UI state — the function
returns normally in every case rather than re-throwing. -/
theorem load_tone_bank_marks_iff (st : DeviceDataState P T) (ui : UIState)
    (bankIndex : Nat) (forceReload : Bool) (outcome : ClientOutcome T)
    (hnew : bankIndex ∉ st.loadedToneBanks) :
    (bankIndex ∈ (loadToneBank st ui bankIndex forceReload true
        outcome).1.loadedToneBanks
      ↔ ∃ delivered, outcome = .loadSuccess delivered) ∧
    (∀ delivered msg, outcome = .loadFailure delivered msg →
      (loadToneBank st ui bankIndex forceReload true outcome).2.error
          = some msg ∧
        (loadToneBank st ui bankIndex forceReload true
          outcome).1.loadedToneBanks = st.loadedToneBanks) ∧
    (∀ msg, outcome = .connectFailure msg →
      (loadToneBank st ui bankIndex forceReload true outcome).2.error
          = some msg ∧
        (loadToneBank st ui bankIndex forceReload true
          outcome).1.loadedToneBanks = st.loadedToneBanks) := by
  refine ⟨?_, ?_, ?_⟩
  · cases outcome with
    | connectFailure msg =>
      rw [loadToneBank]
      simp only [Bool.not_true, Bool.false_eq_true, if_false]
      constructor
      · intro hmem
        rw [ensureToneArraySize_loadedToneBanks] at hmem
        exact absurd hmem hnew
      · rintro ⟨delivered, hcon⟩
        cases hcon
    | loadFailure delivered msg =>
      rw [loadToneBank]
      simp only [Bool.not_true, Bool.false_eq_true, if_false]
      constructor
      · intro hmem
        rw [deliverItems_loadedToneBanks,
          ensureToneArraySize_loadedToneBanks] at hmem
        exact absurd hmem hnew
      · rintro ⟨delivered2, hcon⟩
        cases hcon
    | loadSuccess delivered =>
      rw [loadToneBank]
      simp only [Bool.not_true, Bool.false_eq_true, if_false]
      constructor
      · intro _
        exact ⟨delivered, rfl⟩
      · intro _
        rw [mem_markToneBankLoaded]
        exact Or.inr rfl
  · rintro delivered msg rfl
    rw [loadToneBank]
    refine ⟨?_, ?_⟩ <;>
      simp [deliverItems_loadedToneBanks, ensureToneArraySize_loadedToneBanks]
  · rintro msg rfl
    rw [loadToneBank]
    refine ⟨?_, ?_⟩ <;> simp [ensureToneArraySize_loadedToneBanks]

theorem load_tone_bank_marks_iff_witness :
    ((0 : Nat) ∉ (initialState : DeviceDataState Nat Nat).loadedToneBanks) ∧
    ((loadToneBank (initialState : DeviceDataState Nat Nat)
        ⟨false, "", none⟩ 0 false true
        (.loadFailure [(0, 7), (1, 8)] "checksum error")).2.error
      = some "checksum error" ∧
      (loadToneBank (initialState : DeviceDataState Nat Nat)
        ⟨false, "", none⟩ 0 false true
        (.loadFailure [(0, 7), (1, 8)] "checksum error")).1.loadedToneBanks
      = (initialState : DeviceDataState Nat Nat).loadedToneBanks) :=
  ⟨by decide,
    (load_tone_bank_marks_iff (initialState : DeviceDataState Nat Nat)
        ⟨false, "", none⟩ 0 false
        (.loadFailure [(0, 7), (1, 8)] "checksum error")
        (by decide)).2.1 [(0, 7), (1, 8)] "checksum error" rfl⟩

end TonesPage
